import Mathlib

/-!
Verification of `graph_tool.stats`: histograms, averages, parallel-edge and
self-loop labelling/removal, and shortest-distance histograms.

The Python module under `src/src/graph_tool/stats/__init__.py` is a thin
wrapper around native kernels (`libgraph_tool_stats`) whose source is not in
the repository; those kernels are modelled here from the specification, while
the wrapper's own control flow (filter stash/pop, composition of labelling and
removal) is embedded from the Python source.
-/

namespace GraphToolStats

/-- A graph: vertices are `0, ..., numVertices - 1`; edges are an ordered list
of (source, target) pairs (edge handles are list positions).  `directed` and
`rev` are the directedness and edge-reversal flags; `fstash` is the stack of
stashed (directed, rev) flag pairs maintained by `stash_filter`/`pop_filter`. -/
structure Graph where
  numVertices : Nat
  edges : List (Nat × Nat)
  directed : Bool
  rev : Bool
  fstash : List (Bool × Bool)
deriving DecidableEq, Repr

/-- Modelled from the spec: `Graph.stash_filter(all=False, directed=True,
reversed=True)` (graph-tool core, not under `src/`) records the current
directedness/reversal flags on a stack and resets the graph to its native
(directed, unreversed) structure, "so the removal sees the true unfiltered
structure". -/
def stashFilter (g : Graph) : Graph :=
  { g with directed := true, rev := false,
           fstash := (g.directed, g.rev) :: g.fstash }

/-- Modelled from the spec: `Graph.pop_filter(all=False, directed=True,
reversed=True)` (graph-tool core, not under `src/`) restores the most recently
stashed directedness/reversal flags. -/
def popFilter (g : Graph) : Graph :=
  match g.fstash with
  | [] => g
  | (d, r) :: rest => { g with directed := d, rev := r, fstash := rest }

/-- Modelled from the spec: the native removal kernel
`libgraph_tool_stats.remove_labeled_edges` (not under `src/`) keeps exactly
the edges whose label is zero and removes every edge whose label is
nonzero. -/
def removeLabeledK (edges : List (Nat × Nat)) (label : List Int) :
    List (Nat × Nat) :=
  ((edges.zip label).filter (fun p => p.2 == 0)).map Prod.fst

/-- The Python wrapper `remove_labeled_edges` (src lines 273-278): it stashes
the directedness/reversal flags, invokes the native kernel, and pops the
stash.  The Python code has no `try`/`finally`, so when the kernel raises the
exception propagates and `pop_filter` is never executed; `kernelOk = false`
models a kernel failure and the `error` value carries the graph state left
behind. -/
def remove_labeled_edges (g : Graph) (label : List Int) (kernelOk : Bool) :
    Except Graph Graph :=
  let g1 := stashFilter g
  if kernelOk then
    Except.ok (popFilter { g1 with edges := removeLabeledK g1.edges label })
  else
    Except.error g1

/-- Modelled from the spec: the native kernel
`libgraph_tool_stats.label_self_loops` (not under `src/`) writes 1 for each
edge whose source equals its target and 0 otherwise.  The Python wrapper
`label_self_loops` (src lines 300-310) just allocates the property and calls
the kernel. -/
def label_self_loops (g : Graph) : List Int :=
  g.edges.map (fun e => if e.1 == e.2 then (1 : Int) else 0)

/-- Edge grouping key: the ordered (source, target) pair for a directed
graph, the unordered pair (normalised as (min, max)) for an undirected one. -/
def edgeKey (directed : Bool) (e : Nat × Nat) : Nat × Nat :=
  if directed then e else (min e.1 e.2, max e.1 e.2)

/-- Modelled from the spec: the core loop of the native kernel
`libgraph_tool_stats.label_parallel_edges` (not under `src/`): a map from
(source, target) key to a counter, incremented as each edge of that group is
visited in iteration order; each edge is labelled with the counter value seen
at its visit. -/
def lpeGo (directed : Bool) : List (Nat × Nat) → ((Nat × Nat) → Nat) → List Int
  | [], _ => []
  | e :: rest, cnt =>
      let k := edgeKey directed e
      (cnt k : Int) ::
        lpeGo directed rest (fun k2 => if k2 = k then cnt k + 1 else cnt k2)

/-- The group counter map after one visit of an edge with key `k0`. -/
def bumped (cnt : (Nat × Nat) → Nat) (k0 : Nat × Nat) : (Nat × Nat) → Nat :=
  fun k2 => if k2 = k0 then cnt k0 + 1 else cnt k2

/-- The wrapper `label_parallel_edges` (src lines 281-290): allocates a fresh
label property and runs the parallel-edge labelling kernel, starting all group
counters at zero. -/
def label_parallel_edges (g : Graph) : List Int :=
  lpeGo g.directed g.edges (fun _ => 0)

/-- Extract the graph state from a wrapper call, whether it completed or
raised (the Python caller observes the same mutable graph object either
way). -/
def exceptState (r : Except Graph Graph) : Graph :=
  match r with
  | Except.ok g => g
  | Except.error g => g

/-- The wrapper `remove_parallel_edges` (src lines 293-297): label the
parallel edges, then remove the labelled (nonzero) ones. -/
def remove_parallel_edges (g : Graph) : Graph :=
  exceptState (remove_labeled_edges g (label_parallel_edges g) true)

/-- The wrapper `remove_self_loops` (src lines 313-316): label the self-loops,
then remove the labelled (nonzero) ones. -/
def remove_self_loops (g : Graph) : Graph :=
  exceptState (remove_labeled_edges g (label_self_loops g) true)

/-- Modelled from the spec: auto-range bin synthesis used by the native
histogram kernels (not under `src/`) when exactly two bin edges are given:
a uniform edge sequence starting at `start`, stepping by `step`, extended far
enough to cover the maximum observed value `maxVal`. -/
def expandBins (start step maxVal : Int) : List Int :=
  let n := if maxVal < start then 1 else (maxVal - start).toNat / step.toNat + 1
  (List.range (n + 1)).map (fun (i : Nat) => start + step * (i : Int))

/-- Consecutive pairs of bin edges, i.e. the half-open intervals of the
histogram. -/
def binPairs : List Int → List (Int × Int)
  | a :: b :: t => (a, b) :: binPairs (b :: t)
  | _ => []

/-- Count, for each bin, the values `v` with `lo ≤ v < hi`. -/
def countsFor (bins : List Int) (values : List Int) : List Nat :=
  (binPairs bins).map (fun p => values.countP (fun v => p.1 ≤ v && v < p.2))

/-- Executable check that a list of bin edges is non-decreasing. -/
def sortedB : List Int → Bool
  | a :: b :: t => decide (a ≤ b) && sortedB (b :: t)
  | _ => true

/-- Modelled from the spec: the shared histogram kernel of
`libgraph_tool_stats` (not under `src/`).  Fewer than two edges, a
non-positive derived step, or non-monotone edges are an `InvalidBinSpec`
error; with exactly two edges the auto-range expansion of `expandBins` is
used; values outside the bin range are dropped. -/
def histogramK (bins : List Int) (values : List Int) :
    Except String (List Nat × List Int) :=
  if bins.length = 2 then
    let a := bins.head!
    let step := bins.getLast! - bins.head!
    if step ≤ 0 then Except.error "InvalidBinSpec"
    else
      let full := expandBins a step (values.foldl max a)
      Except.ok (countsFor full values, full)
  else if 3 ≤ bins.length ∧ sortedB bins = true then
    Except.ok (countsFor bins values, bins)
  else Except.error "InvalidBinSpec"

/-- Degree selector: "in", "out" or "total". -/
inductive Deg where
  | dIn
  | dOut
  | dTotal
deriving DecidableEq, Repr

/-- Out-degree of a vertex: number of edges with this source. -/
def outDeg (g : Graph) (v : Nat) : Nat :=
  g.edges.countP (fun e => e.1 == v)

/-- In-degree of a vertex: number of edges with this target. -/
def inDeg (g : Graph) (v : Nat) : Nat :=
  g.edges.countP (fun e => e.2 == v)

/-- The scalar value a degree selector assigns to a vertex. -/
def degValue (g : Graph) (d : Deg) (v : Nat) : Nat :=
  match d with
  | Deg.dIn => inDeg g v
  | Deg.dOut => outDeg g v
  | Deg.dTotal => inDeg g v + outDeg g v

/-- The per-vertex value sequence a histogram or average runs over. -/
def vertexValues (g : Graph) (d : Deg) : List Int :=
  (List.range g.numVertices).map (fun v => (degValue g d v : Int))

/-- The wrapper `vertex_hist` (src lines 61-116): resolve the degree selector
into per-vertex values and run the histogram kernel. -/
def vertex_hist (g : Graph) (d : Deg) (bins : List Int) :
    Except String (List Nat × List Int) :=
  histogramK bins (vertexValues g d)

/-- The wrapper `edge_hist` (src lines 119-175): run the histogram kernel on
the per-edge values of an edge property map. -/
def edge_hist (_g : Graph) (eprop : List Int) (bins : List Int) :
    Except String (List Nat × List Int) :=
  histogramK bins eprop

/-- Out-neighbours of a vertex, respecting the reversal flag and, for an
undirected graph, traversing edges both ways. -/
def adjOf (g : Graph) (v : Nat) : List Nat :=
  let es := if g.rev then g.edges.map Prod.swap else g.edges
  if g.directed then (es.filter (fun e => e.1 == v)).map Prod.snd
  else (es.filter (fun e => e.1 == v)).map Prod.snd ++
       (es.filter (fun e => e.2 == v)).map Prod.fst

/-- Vertices reachable from `s` by a path of at most `d` edges. -/
def reachSet (g : Graph) (s : Nat) : Nat → List Nat
  | 0 => [s]
  | d + 1 =>
      let r := reachSet g s d
      (r ++ r.flatMap (adjOf g)).dedup

/-- Modelled from the spec: unweighted single-source shortest-path distance
from `s` to `t` (the BFS distance computed by the native
`distance_histogram` kernel, not under `src/`): the least number of edges of
a path, `none` when `t` is unreachable from `s` (a shortest path uses fewer
than `numVertices` edges). -/
def distOpt (g : Graph) (s t : Nat) : Option Nat :=
  (List.range g.numVertices).find? (fun d => t ∈ reachSet g s d)

/-- All finite shortest-path distances over ordered vertex pairs with distinct
endpoints (self pairs excluded, unreachable pairs contributing nothing). -/
def distanceValues (g : Graph) : List Nat :=
  (List.range g.numVertices).flatMap (fun s =>
    (List.range g.numVertices).filterMap (fun t =>
      if s = t then none else distOpt g s t))

/-- The diameter: the largest finite pairwise distance. -/
def diam (g : Graph) : Nat :=
  (distanceValues g).foldl max 0

/-- The wrapper `distance_histogram` (src lines 319-390) in exact mode
(`samples=None`, `weight=None`): bin every finite pairwise shortest-path
distance. -/
def distance_histogram (g : Graph) (bins : List Int) :
    Except String (List Nat × List Int) :=
  histogramK bins ((distanceValues g).map (fun (d : Nat) => (d : Int)))

/-- Mean of a list of rationals (0 on the empty list, by the convention
`x / 0 = 0`). -/
def meanQ (xs : List Rat) : Rat :=
  xs.sum / xs.length

/-- Sum of squared deviations from the mean. -/
def sumSqDev (xs : List Rat) : Rat :=
  (xs.map (fun x => (x - meanQ xs) ^ 2)).sum

/-- Sample variance (denominator `n - 1`). -/
def sampleVar (xs : List Rat) : Rat :=
  sumSqDev xs / ((xs.length : Rat) - 1)

/-- Modelled from the spec: the standard error of the mean computed by the
native average kernels (not under `src/`): sample standard deviation divided
by `sqrt n`, defined to be 0 (not NaN, not an error) when `n ≤ 1`. -/
noncomputable def stdErr (xs : List Rat) : Real :=
  if xs.length ≤ 1 then 0
  else Real.sqrt ((sampleVar xs : Real) / (xs.length : Real))

/-- Modelled from the spec: the shared average kernel of
`libgraph_tool_stats` (not under `src/`): returns (mean, standard error),
and (0, 0) on an empty input rather than failing. -/
noncomputable def averageK (xs : List Rat) : Rat × Real :=
  (if xs.length = 0 then 0 else meanQ xs, stdErr xs)

/-- The wrapper `vertex_average` (src lines 178-222). -/
noncomputable def vertex_average (g : Graph) (d : Deg) : Rat × Real :=
  averageK ((vertexValues g d).map (fun (v : Int) => (v : Rat)))

/-- The wrapper `edge_average` (src lines 225-270), over the per-edge values
of an edge property map. -/
noncomputable def edge_average (_g : Graph) (eprop : List Rat) : Rat × Real :=
  averageK eprop

/-- Number of bins of `bins` whose half-open interval contains `v`. -/
def inRangeCount (bins : List Int) (v : Int) : Nat :=
  (binPairs bins).countP (fun p => p.1 ≤ v && v < p.2)

/-- A directed 3-cycle on vertices 0, 1, 2. -/
def triangleDir : Graph :=
  ⟨3, [(0, 1), (1, 2), (2, 0)], true, false, []⟩

/-- An undirected triangle on vertices 0, 1, 2. -/
def triangleUndir : Graph :=
  ⟨3, [(0, 1), (1, 2), (2, 0)], false, false, []⟩

/-- A directed star: vertex 0 points at vertices 1-5, so the maximum
out-degree is 5. -/
def starSix : Graph :=
  ⟨6, [(0, 1), (0, 2), (0, 3), (0, 4), (0, 5)], true, false, []⟩

/-- The empty graph. -/
def emptyGraph : Graph :=
  ⟨0, [], true, false, []⟩

/-- A graph carrying an active reversal flag, used to observe the filter
state left behind by a failing removal. -/
def reversedGraph : Graph :=
  ⟨1, [], true, true, []⟩

/-- A directed graph with two self-loops and two ordinary edges. -/
def loopGraph : Graph :=
  ⟨3, [(0, 0), (0, 1), (1, 1), (1, 2)], true, false, []⟩

/-- A directed graph with parallel edges: (0,1) three times, (1,0) once and a
doubled self-loop. -/
def multiGraph : Graph :=
  ⟨3, [(0, 1), (0, 1), (1, 0), (0, 1), (2, 2), (2, 2)], true, false, []⟩

theorem remove_labeled_edges_ok (g : Graph) (label : List Int) :
    remove_labeled_edges g label true
      = Except.ok { g with edges := removeLabeledK g.edges label } := by
  cases g with
  | mk nv es dir rv st => rfl

theorem remove_labeled_edges_fail (g : Graph) (label : List Int) :
    remove_labeled_edges g label false = Except.error (stashFilter g) := rfl

theorem remove_parallel_edges_eq (g : Graph) :
    remove_parallel_edges g
      = { g with edges := removeLabeledK g.edges (label_parallel_edges g) } := by
  unfold remove_parallel_edges
  rw [remove_labeled_edges_ok]
  rfl

theorem remove_self_loops_eq (g : Graph) :
    remove_self_loops g
      = { g with edges := removeLabeledK g.edges (label_self_loops g) } := by
  unfold remove_self_loops
  rw [remove_labeled_edges_ok]
  rfl

theorem sum_map_zero {α : Type} (l : List α) :
    (l.map (fun _ => (0 : Nat))).sum = 0 := by
  induction l with
  | nil => rfl
  | cons a t ih => simp [ih]

theorem sum_map_one {α : Type} (l : List α) :
    (l.map (fun _ => (1 : Nat))).sum = l.length := by
  induction l with
  | nil => rfl
  | cons a t ih => simp [ih]; omega

theorem sum_map_addf {α : Type} (l : List α) (f g : α → Nat) :
    (l.map (fun a => f a + g a)).sum = (l.map f).sum + (l.map g).sum := by
  induction l with
  | nil => rfl
  | cons a t ih => simp [ih]; omega

theorem sum_map_ite_countP {α : Type} (l : List α) (p : α → Bool) :
    (l.map (fun a => if p a then 1 else 0)).sum = l.countP p := by
  induction l with
  | nil => rfl
  | cons a t ih => simp [List.countP_cons, ih]; omega

theorem sum_map_countP_comm {α β : Type} (ps : List α) (vs : List β)
    (Q : α → β → Bool) :
    (ps.map (fun p => vs.countP (fun v => Q p v))).sum
      = (vs.map (fun v => ps.countP (fun p => Q p v))).sum := by
  induction vs with
  | nil => simp [sum_map_zero]
  | cons v vs ih =>
      have h1 : ps.map (fun p => List.countP (fun x => Q p x) (v :: vs))
          = ps.map (fun p =>
              List.countP (fun x => Q p x) vs + if Q p v then 1 else 0) :=
        List.map_congr_left (fun p _ => List.countP_cons _ _ _)
      rw [h1, sum_map_addf, sum_map_ite_countP, ih]
      simp
      omega

theorem countsFor_sum_swap (bins values : List Int) :
    (countsFor bins values).sum
      = (values.map (fun v => inRangeCount bins v)).sum := by
  unfold countsFor inRangeCount
  exact sum_map_countP_comm (binPairs bins) values
    (fun p v => p.1 ≤ v && v < p.2)

theorem head_le_getLast (t : List Int) (c : Int)
    (h : List.Chain' (fun x y => x ≤ y) (c :: t)) :
    c ≤ (c :: t).getLast (by simp) := by
  induction t generalizing c with
  | nil => simp
  | cons d t ih =>
      rw [List.chain'_cons] at h
      calc c ≤ d := h.1
        _ ≤ (d :: t).getLast (by simp) := ih d h.2
        _ = ((c :: d :: t).getLast (by simp)) := (List.getLast_cons (by simp)).symm

theorem binPairs_bounds (rest : List Int) (b : Int)
    (h : List.Chain' (fun x y => x ≤ y) (b :: rest)) :
    ∀ p ∈ binPairs (b :: rest),
      b ≤ p.1 ∧ p.2 ≤ (b :: rest).getLast (by simp) := by
  induction rest generalizing b with
  | nil => intro p hp; simp [binPairs] at hp
  | cons c t ih =>
      intro p hp
      rw [List.chain'_cons] at h
      rw [show binPairs (b :: c :: t) = (b, c) :: binPairs (c :: t) from rfl,
        List.mem_cons] at hp
      rw [List.getLast_cons (by simp)]
      rcases hp with hp | hp
      · subst hp
        exact ⟨le_refl b, head_le_getLast t c h.2⟩
      · rcases ih c h.2 p hp with ⟨h1, h2⟩
        exact ⟨le_trans h.1 h1, h2⟩

theorem inRangeCount_cons (b c : Int) (t : List Int) (v : Int) :
    inRangeCount (b :: c :: t) v
      = inRangeCount (c :: t) v + (if b ≤ v ∧ v < c then 1 else 0) := by
  unfold inRangeCount
  rw [show binPairs (b :: c :: t) = (b, c) :: binPairs (c :: t) from rfl,
    List.countP_cons]
  simp

theorem inRangeCount_le_one (rest : List Int) (b v : Int)
    (h : List.Chain' (fun x y => x ≤ y) (b :: rest)) :
    inRangeCount (b :: rest) v ≤ 1 := by
  induction rest generalizing b with
  | nil => simp [inRangeCount, binPairs]
  | cons c t ih =>
      rw [List.chain'_cons] at h
      rw [inRangeCount_cons]
      by_cases hv : b ≤ v ∧ v < c
      · have h0 : inRangeCount (c :: t) v = 0 := by
          unfold inRangeCount
          rw [List.countP_eq_zero]
          intro p hp
          have hb := (binPairs_bounds t c h.2 p hp).1
          simp only [Bool.and_eq_true, decide_eq_true_eq, not_and]
          intro hle
          exact absurd (le_trans hb hle) (not_le.mpr hv.2)
        simp [h0, hv]
      · simp only [if_neg hv, Nat.add_zero]
        exact ih c h.2

theorem inRangeCount_pos (rest : List Int) (b v : Int) (hne : rest ≠ [])
    (h1 : b ≤ v) (h2 : v < (b :: rest).getLast (by simp)) :
    0 < inRangeCount (b :: rest) v := by
  induction rest generalizing b with
  | nil => exact absurd rfl hne
  | cons c t ih =>
      rw [inRangeCount_cons]
      by_cases hv : v < c
      · simp [h1, hv]
      · rcases t with _ | ⟨d, t⟩
        · rw [List.getLast_cons (by simp)] at h2
          simp at h2
          exact absurd h2 hv
        · have h2' : v < (c :: d :: t).getLast (by simp) := by
            rwa [List.getLast_cons (by simp)] at h2
          have := ih c (by simp) (le_of_not_lt hv) h2'
          omega

theorem inRangeCount_eq_one (rest : List Int) (b v : Int) (hne : rest ≠ [])
    (h : List.Chain' (fun x y => x ≤ y) (b :: rest))
    (h1 : b ≤ v) (h2 : v < (b :: rest).getLast (by simp)) :
    inRangeCount (b :: rest) v = 1 := by
  have hle := inRangeCount_le_one rest b v h
  have hpos := inRangeCount_pos rest b v hne h1 h2
  omega

theorem inRangeCount_eq_zero_of_lt (rest : List Int) (b v : Int)
    (h : List.Chain' (fun x y => x ≤ y) (b :: rest)) (hv : v < b) :
    inRangeCount (b :: rest) v = 0 := by
  unfold inRangeCount
  rw [List.countP_eq_zero]
  intro p hp
  have hb := (binPairs_bounds rest b h p hp).1
  simp only [Bool.and_eq_true, decide_eq_true_eq, not_and]
  intro hle
  exact absurd (le_trans hb hle) (not_le.mpr hv)

theorem inRangeCount_eq_zero_of_ge (rest : List Int) (b v : Int)
    (h : List.Chain' (fun x y => x ≤ y) (b :: rest))
    (hv : (b :: rest).getLast (by simp) ≤ v) :
    inRangeCount (b :: rest) v = 0 := by
  unfold inRangeCount
  rw [List.countP_eq_zero]
  intro p hp
  have hb := (binPairs_bounds rest b h p hp).2
  simp only [Bool.and_eq_true, decide_eq_true_eq, not_and]
  intro _
  exact not_lt.mpr (le_trans hb hv)

theorem countsFor_sum_le (rest : List Int) (b : Int) (values : List Int)
    (h : List.Chain' (fun x y => x ≤ y) (b :: rest)) :
    (countsFor (b :: rest) values).sum ≤ values.length := by
  rw [countsFor_sum_swap]
  calc (values.map (fun v => inRangeCount (b :: rest) v)).sum
      ≤ (values.map (fun _ => 1)).sum :=
        List.sum_le_sum (fun v _ => inRangeCount_le_one rest b v h)
    _ = values.length := sum_map_one values

theorem countsFor_sum_eq (rest : List Int) (b : Int) (values : List Int)
    (hne : rest ≠ [])
    (h : List.Chain' (fun x y => x ≤ y) (b :: rest))
    (hin : ∀ v ∈ values, b ≤ v ∧ v < (b :: rest).getLast (by simp)) :
    (countsFor (b :: rest) values).sum = values.length := by
  rw [countsFor_sum_swap]
  have h1 : values.map (fun v => inRangeCount (b :: rest) v)
      = values.map (fun _ => 1) :=
    List.map_congr_left (fun v hv =>
      inRangeCount_eq_one rest b v hne h (hin v hv).1 (hin v hv).2)
  rw [h1, sum_map_one]

theorem countsFor_filter (rest : List Int) (b : Int) (values : List Int)
    (h : List.Chain' (fun x y => x ≤ y) (b :: rest)) :
    countsFor (b :: rest)
        (values.filter (fun v =>
          b ≤ v && v < (b :: rest).getLast (by simp)))
      = countsFor (b :: rest) values := by
  unfold countsFor
  refine List.map_congr_left (fun p hp => ?_)
  rw [List.countP_filter]
  refine List.countP_congr (fun v _ => ?_)
  rcases binPairs_bounds rest b h p hp with ⟨hb1, hb2⟩
  simp only [Bool.and_eq_true, decide_eq_true_eq, and_iff_left_iff_imp]
  intro hv
  exact ⟨le_trans hb1 hv.1, lt_of_lt_of_le hv.2 hb2⟩

theorem getLast!_eq_getLast (l : List Int) (h : l ≠ []) :
    l.getLast! = l.getLast h := by
  rw [List.getLast!_eq_getElem!, List.getLast_eq_getElem]
  exact getElem!_pos l (l.length - 1)
    (by have := List.length_pos.mpr h; omega)

theorem expandBins_length (a s m : Int) :
    (expandBins a s m).length
      = (if m < a then 1 else (m - a).toNat / s.toNat + 1) + 1 := by
  simp only [expandBins]
  rw [List.length_map, List.length_range]

theorem expandBins_length_ge (a s m : Int) : 2 ≤ (expandBins a s m).length := by
  rw [expandBins_length]
  by_cases hm : m < a
  · rw [if_pos hm]
  · rw [if_neg hm, Nat.add_assoc]
    exact Nat.le_add_left 2 _

theorem foldl_max_mono (l : List Int) (a b : Int) (h : a ≤ b) :
    l.foldl max a ≤ l.foldl max b := by
  induction l generalizing a b with
  | nil => exact h
  | cons c t ih => exact ih (max a c) (max b c) (max_le_max h (le_refl c))

theorem expandBins_ne_nil (a s m : Int) : expandBins a s m ≠ [] := by
  have h2 := expandBins_length_ge a s m
  intro hnil
  rw [hnil] at h2
  simp at h2

theorem expandBins_getElem (a s m : Int) (i : Nat)
    (h : i < (expandBins a s m).length) :
    (expandBins a s m)[i] = a + s * i := by
  simp only [expandBins] at h ⊢
  rw [List.getElem_map, List.getElem_range]

theorem expandBins_getElemBang (a s m : Int) (i : Nat)
    (h : i < (expandBins a s m).length) :
    (expandBins a s m)[i]! = a + s * i := by
  rw [getElem!_pos (expandBins a s m) i h]
  exact expandBins_getElem a s m i h

theorem expandBins_headBang (a s m : Int) : (expandBins a s m).head! = a := by
  have h0 : 0 < (expandBins a s m).length := by
    have := expandBins_length_ge a s m
    omega
  rw [List.head!_eq_head?, List.head?_eq_getElem?, List.getElem?_eq_getElem h0]
  have := expandBins_getElem a s m 0 h0
  simp only [Option.iget_some, this, Nat.cast_zero, mul_zero, add_zero]

theorem expandBins_chain (a s m : Int) (hs : 0 ≤ s) :
    List.Chain' (fun x y => x ≤ y) (expandBins a s m) := by
  simp only [expandBins]
  rw [List.chain'_map]
  obtain ⟨n0, hn0⟩ : ∃ n0,
      (if m < a then 1 else (m - a).toNat / s.toNat + 1) = n0 + 1 := by
    by_cases hm : m < a
    · exact ⟨0, by rw [if_pos hm]⟩
    · exact ⟨(m - a).toNat / s.toNat, by rw [if_neg hm]⟩
  rw [hn0]
  rw [List.chain'_range_succ]
  intro k _
  have hup : s * (k : Int) ≤ s * ((k : Int) + 1) := by nlinarith
  push_cast
  omega

theorem expandBins_getLast (a s m : Int) (hs : 0 < s) :
    m < (expandBins a s m).getLast (expandBins_ne_nil a s m) := by
  rw [List.getLast_eq_getElem]
  rw [expandBins_getElem a s m _ (by have := expandBins_length_ge a s m; omega)]
  rw [expandBins_length]
  by_cases hm : m < a
  · rw [if_pos hm]
    have hone : (1 + 1 - 1 : Nat) = 1 := rfl
    rw [hone, Nat.cast_one, mul_one]
    omega
  · rw [if_neg hm]
    have ha : a ≤ m := le_of_not_lt hm
    set M := (m - a).toNat with hM
    set S := s.toNat with hS
    obtain ⟨q, hq⟩ : ∃ q, M / S = q := ⟨M / S, rfl⟩
    have hSpos : 0 < S := by omega
    have hdm : S * q + M % S = M := by rw [← hq]; exact Nat.div_add_mod M S
    have hmod : M % S < S := Nat.mod_lt _ hSpos
    have hnat : M < S * (q + 1) := by
      rw [Nat.mul_succ]
      omega
    have hcastM : (M : Int) = m - a := by
      rw [hM]
      exact Int.toNat_of_nonneg (by omega)
    have hcastS : (S : Int) = s := by
      rw [hS]
      exact Int.toNat_of_nonneg (by omega)
    have hint : (M : Int) < (S : Int) * ((q : Int) + 1) := by
      exact_mod_cast hnat
    rw [hcastM, hcastS] at hint
    have hidx : (M / S + 1 + 1 - 1 : Nat) = (q + 1 : Nat) := by omega
    rw [hidx, Nat.cast_add, Nat.cast_one]
    omega

theorem expandBins_getLastBang (a s m : Int) (hs : 0 < s) :
    m < (expandBins a s m).getLast! := by
  rw [getLast!_eq_getLast _ (expandBins_ne_nil a s m)]
  exact expandBins_getLast a s m hs

theorem foldl_max_init (l : List Int) (a : Int) : a ≤ l.foldl max a := by
  induction l generalizing a with
  | nil => simp
  | cons b t ih =>
      calc a ≤ max a b := le_max_left a b
        _ ≤ t.foldl max (max a b) := ih _

theorem foldl_max_le (l : List Int) (x a : Int) (hx : x ∈ l) :
    x ≤ l.foldl max a := by
  induction l generalizing a with
  | nil => simp at hx
  | cons b t ih =>
      rcases List.mem_cons.mp hx with h | h
      · subst h
        calc x ≤ max a x := le_max_right a x
          _ ≤ t.foldl max (max a x) := foldl_max_init t (max a x)
      · exact ih (max a b) h

theorem sortedB_iff_chain (l : List Int) :
    sortedB l = true ↔ List.Chain' (fun x y => x ≤ y) l := by
  induction l with
  | nil => simp [sortedB]
  | cons a t ih =>
      cases t with
      | nil => simp [sortedB]
      | cons b u =>
          rw [show sortedB (a :: b :: u)
              = (decide (a ≤ b) && sortedB (b :: u)) from rfl]
          rw [List.chain'_cons, Bool.and_eq_true, decide_eq_true_eq, ih]

theorem histogramK_ok_cases (bins values : List Int) (counts : List Nat)
    (obins : List Int)
    (h : histogramK bins values = Except.ok (counts, obins)) :
    (∃ a b : Int, bins = [a, b] ∧ a < b ∧
        obins = expandBins a (b - a) (values.foldl max a) ∧
        counts = countsFor obins values)
    ∨ (3 ≤ bins.length ∧ List.Chain' (fun x y => x ≤ y) bins ∧
        obins = bins ∧ counts = countsFor bins values) := by
  unfold histogramK at h
  by_cases h2 : bins.length = 2
  · left
    rw [if_pos h2] at h
    obtain ⟨a, b, hab⟩ := List.length_eq_two.mp h2
    subst hab
    have hhead : ([a, b] : List Int).head! = a := rfl
    have hlast : ([a, b] : List Int).getLast! = b := rfl
    rw [hhead, hlast] at h
    by_cases hstep : b - a ≤ 0
    · rw [if_pos hstep] at h
      exact absurd h (by simp)
    · rw [if_neg hstep] at h
      simp only [Except.ok.injEq, Prod.mk.injEq] at h
      have hob : obins = expandBins a (b - a) (values.foldl max a) := h.2.symm
      have hcc : counts = countsFor obins values := by
        rw [hob]
        exact h.1.symm
      exact ⟨a, b, rfl, by omega, hob, hcc⟩
  · right
    rw [if_neg h2] at h
    by_cases h3 : 3 ≤ bins.length ∧ sortedB bins = true
    · rw [if_pos h3] at h
      simp only [Except.ok.injEq, Prod.mk.injEq] at h
      exact ⟨h3.1, (sortedB_iff_chain bins).mp h3.2, h.2.symm, h.1.symm⟩
    · rw [if_neg h3] at h
      exact absurd h (by simp)

theorem histogramK_ok_shape (bins values : List Int) (counts : List Nat)
    (obins : List Int)
    (h : histogramK bins values = Except.ok (counts, obins)) :
    ∃ b0 rest, obins = b0 :: rest ∧ rest ≠ [] ∧
      List.Chain' (fun x y => x ≤ y) obins ∧
      counts = countsFor obins values ∧
      b0 = bins.head! ∧
      bins.getLast! ≤ obins.getLast! := by
  rcases histogramK_ok_cases bins values counts obins h with
    ⟨a, b, hbins, hab, hob, hc⟩ | ⟨h3, hch, hob, hc⟩
  · have hne := expandBins_ne_nil a (b - a) (values.foldl max a)
    rw [← hob] at hne
    obtain ⟨b0, rest, hcons⟩ := List.exists_cons_of_ne_nil hne
    refine ⟨b0, rest, hcons, ?_, ?_, hc, ?_, ?_⟩
    · intro hrest
      have hlen := expandBins_length_ge a (b - a) (values.foldl max a)
      rw [← hob, hcons, hrest] at hlen
      simp at hlen
    · rw [hob]
      exact expandBins_chain _ _ _ (by omega)
    · have hhead : obins.head! = a := by
        rw [hob]
        exact expandBins_headBang _ _ _
      rw [hcons] at hhead
      rw [List.head!_cons] at hhead
      rw [hhead, hbins]
      rfl
    · have hbl : bins.getLast! = b := by rw [hbins]; rfl
      rw [hbl, hob]
      have hstep : 0 < b - a := by omega
      -- the expanded edge list ends at least one step past its start
      have hlen := expandBins_length a (b - a) (values.foldl max a)
      set m := values.foldl max a with hm
      have hnth := expandBins_getElem a (b - a) m
      rw [getLast!_eq_getLast _ (expandBins_ne_nil a (b - a) m),
        List.getLast_eq_getElem]
      rw [expandBins_getElem a (b - a) m _
        (by have := expandBins_length_ge a (b - a) m; omega)]
      rw [hlen]
      obtain ⟨n0, hn0⟩ : ∃ n0,
          (if m < a then 1 else (m - a).toNat / (b - a).toNat + 1) = n0 + 1 := by
        by_cases hma : m < a
        · exact ⟨0, by rw [if_pos hma]⟩
        · exact ⟨(m - a).toNat / (b - a).toNat, by rw [if_neg hma]⟩
      rw [hn0]
      have hidx : (n0 + 1 + 1 - 1 : Nat) = n0 + 1 := by omega
      rw [hidx, Nat.cast_add, Nat.cast_one]
      nlinarith [Int.natCast_nonneg n0]
  · have hne : bins ≠ [] := by
      intro hnil
      rw [hnil] at h3
      simp at h3
    obtain ⟨b0, rest, hcons⟩ := List.exists_cons_of_ne_nil hne
    rw [hob]
    refine ⟨b0, rest, hcons, ?_, hch, hc, by rw [hcons]; rfl, le_refl _⟩
    intro hrest
    rw [hcons, hrest] at h3
    simp at h3

theorem countsFor_filterBang (rest : List Int) (b : Int) (values : List Int)
    (h : List.Chain' (fun x y => x ≤ y) (b :: rest)) :
    countsFor (b :: rest)
        (values.filter (fun v => b ≤ v && v < (b :: rest).getLast!))
      = countsFor (b :: rest) values := by
  have hg : (b :: rest).getLast! = (b :: rest).getLast (by simp) :=
    getLast!_eq_getLast _ (by simp)
  simp only [hg]
  exact countsFor_filter rest b values h

theorem vertexValues_length (g : Graph) (d : Deg) :
    (vertexValues g d).length = g.numVertices := by
  unfold vertexValues
  rw [List.length_map, List.length_range]

/-- C2: for every graph, degree selector and bin specification, a successful
`vertex_hist` call returns counts summing to at most the number of vertices,
with equality when every vertex value lies in `[bins[0], bins[-1])`; values
outside the returned bin range are silently dropped (removing them from the
input leaves the counts unchanged). -/
theorem C2_vertex_hist_sum (g : Graph) (d : Deg) (bins obins : List Int)
    (counts : List Nat)
    (hok : vertex_hist g d bins = Except.ok (counts, obins)) :
    counts.sum ≤ g.numVertices ∧
    ((∀ v ∈ vertexValues g d, bins.head! ≤ v ∧ v < bins.getLast!) →
      counts.sum = g.numVertices) ∧
    counts = countsFor obins ((vertexValues g d).filter
      (fun v => obins.head! ≤ v && v < obins.getLast!)) := by
  obtain ⟨b0, rest, hcons, hrest, hch, hc, hb0, hle⟩ :=
    histogramK_ok_shape bins (vertexValues g d) counts obins hok
  subst hcons
  have hlen := vertexValues_length g d
  have hg : (b0 :: rest).getLast! = (b0 :: rest).getLast (by simp) :=
    getLast!_eq_getLast _ (by simp)
  refine ⟨?_, ?_, ?_⟩
  · rw [hc, ← hlen]
    exact countsFor_sum_le rest b0 _ hch
  · intro hin
    rw [hc, ← hlen]
    apply countsFor_sum_eq rest b0 _ hrest hch
    intro v hv
    refine ⟨?_, ?_⟩
    · rw [← hb0] at hin
      exact (hin v hv).1
    · have h2 := lt_of_lt_of_le (hin v hv).2 hle
      rwa [hg] at h2
  · rw [hc, ← countsFor_filterBang rest b0 _ hch]
    have hh : (b0 :: rest).head! = b0 := rfl
    rw [hh]

theorem foldl_max_init_nat (l : List Nat) (a : Nat) : a ≤ l.foldl max a := by
  induction l generalizing a with
  | nil => simp
  | cons b t ih =>
      calc a ≤ max a b := le_max_left a b
        _ ≤ t.foldl max (max a b) := ih _

theorem foldl_max_le_nat (l : List Nat) (x a : Nat) (hx : x ∈ l) :
    x ≤ l.foldl max a := by
  induction l generalizing a with
  | nil => simp at hx
  | cons b t ih =>
      rcases List.mem_cons.mp hx with h | h
      · subst h
        calc x ≤ max a x := le_max_right a x
          _ ≤ t.foldl max (max a x) := foldl_max_init_nat t (max a x)
      · exact ih (max a b) h

theorem countP_not_add {α : Type} (l : List α) (p : α → Bool) :
    l.countP (fun a => !p a) + l.countP p = l.length := by
  induction l with
  | nil => rfl
  | cons a t ih =>
      by_cases h : p a = true <;> simp [List.countP_cons, h] <;> omega

theorem flatMap_length_const {α β : Type} (l : List α) (f : α → List β)
    (c : Nat) (h : ∀ x ∈ l, (f x).length = c) :
    (l.flatMap f).length = l.length * c := by
  induction l with
  | nil => simp
  | cons a t ih =>
      rw [List.flatMap_cons, List.length_append, h a (by simp),
        ih (fun x hx => h x (by simp [hx])), List.length_cons, Nat.succ_mul]
      omega

theorem distRow_length (g : Graph) (s : Nat) (hs : s < g.numVertices)
    (hconn : ∀ t, t < g.numVertices → s ≠ t →
      (distOpt g s t).isSome = true) :
    ((List.range g.numVertices).filterMap (fun t =>
      if s = t then none else distOpt g s t)).length = g.numVertices - 1 := by
  rw [List.length_filterMap_eq_countP]
  have h1 : (List.range g.numVertices).countP (fun t =>
        ((if s = t then none else distOpt g s t)).isSome)
      = (List.range g.numVertices).countP (fun t => !(decide (s = t))) := by
    refine List.countP_congr (fun t ht => ?_)
    have htv := List.mem_range.mp ht
    by_cases hst : s = t
    · simp [hst]
    · simp [hst, hconn t htv hst]
  rw [h1]
  have h2 : (List.range g.numVertices).countP (fun t => decide (s = t)) = 1 := by
    have hcnt : (List.range g.numVertices).count s = 1 :=
      List.count_eq_one_of_mem (List.nodup_range _) (List.mem_range.mpr hs)
    rw [List.count_eq_countP] at hcnt
    rw [← hcnt]
    refine List.countP_congr (fun t _ => ?_)
    by_cases hst : s = t
    · simp [hst]
    · simp only [beq_iff_eq, decide_eq_true_eq]
      exact ⟨fun h => absurd h hst, fun h => absurd h.symm hst⟩
  have h3 : (List.range g.numVertices).countP (fun t => !(decide (s = t)))
        + (List.range g.numVertices).countP (fun t => decide (s = t))
      = g.numVertices := by
    have h4 := countP_not_add (List.range g.numVertices)
      (fun t => decide (s = t))
    simpa using h4
  rw [h2] at h3
  omega

theorem distanceValues_length (g : Graph)
    (hconn : ∀ s, s < g.numVertices → ∀ t, t < g.numVertices → s ≠ t →
      (distOpt g s t).isSome = true) :
    (distanceValues g).length = g.numVertices * (g.numVertices - 1) := by
  unfold distanceValues
  rw [flatMap_length_const _ _ (g.numVertices - 1)
    (fun s hs => distRow_length g s (List.mem_range.mp hs)
      (hconn s (List.mem_range.mp hs))), List.length_range]

theorem diam_le (g : Graph) (dv : Nat) (h : dv ∈ distanceValues g) :
    dv ≤ diam g :=
  foldl_max_le_nat (distanceValues g) dv 0 h

/-- C1 (amended): in exact mode with explicitly listed bin edges starting at
0 and extending beyond the diameter, `distance_histogram` on a connected
graph (every ordered pair of distinct vertices reachable) returns counts
totalling `V * (V - 1)`; in particular, on the unweighted *undirected*
triangle with bins `[0, 1, 2]` the counts are `[0, 6]`. -/
theorem C1_distance_histogram_total (g : Graph) (bins obins : List Int)
    (counts : List Nat)
    (hok : distance_histogram g bins = Except.ok (counts, obins))
    (hhead : bins.head! = 0)
    (hdiam : (diam g : Int) < bins.getLast!)
    (hconn : ∀ s, s < g.numVertices → ∀ t, t < g.numVertices → s ≠ t →
      (distOpt g s t).isSome = true) :
    counts.sum = g.numVertices * (g.numVertices - 1) ∧
    distance_histogram triangleUndir [0, 1, 2]
      = Except.ok ([0, 6], [0, 1, 2]) := by
  refine ⟨?_, by rfl⟩
  obtain ⟨b0, rest, hcons, hrest, hch, hc, hb0, hle⟩ :=
    histogramK_ok_shape bins
      ((distanceValues g).map (fun (d : Nat) => (d : Int))) counts obins hok
  have hgl : obins.getLast! = (b0 :: rest).getLast (by simp) := by
    rw [hcons]
    exact getLast!_eq_getLast _ (by simp)
  rw [hc, hcons, ← distanceValues_length g hconn,
    ← List.length_map (distanceValues g) (fun (d : Nat) => (d : Int))]
  apply countsFor_sum_eq rest b0 _ hrest (hcons ▸ hch)
  intro v hv
  obtain ⟨dv, hdv, hveq⟩ := List.mem_map.mp hv
  refine ⟨?_, ?_⟩
  · rw [hb0, hhead, ← hveq]
    exact Int.natCast_nonneg dv
  · have hlt : v < obins.getLast! := by
      calc v = (dv : Int) := hveq.symm
        _ ≤ (diam g : Int) := by exact_mod_cast diam_le g dv hdv
        _ < bins.getLast! := hdiam
        _ ≤ obins.getLast! := hle
    rw [hgl] at hlt
    exact hlt

/-- Counterexample to C1 as stated: on the *directed* triangle cycle the
distances are three 1s and three 2s, so with bins `[0, 1, 2]` the counts are
`[0, 3]`, not `[0, 6]`. -/
theorem C1_distance_histogram_counterexample :
    distance_histogram triangleDir [0, 1, 2]
      = Except.ok ([0, 3], [0, 1, 2]) ∧
    ([0, 3] : List Nat) ≠ [0, 6] :=
  ⟨by rfl, by decide⟩

/-- Witness for C1 at the undirected triangle. -/
theorem C1_distance_histogram_total_witness :
    ([0, 6] : List Nat).sum
      = triangleUndir.numVertices * (triangleUndir.numVertices - 1) :=
  (C1_distance_histogram_total triangleUndir [0, 1, 2] [0, 1, 2] [0, 6]
    (by rfl) (by decide) (by decide) (by decide)).1

/-- C3: a two-entry bin specification `[start, second]` is interpreted as
(start, step): the returned bin edges form the uniform sequence
`start + step * i`, begin at `start`, and extend past every observed value;
the counts then sum to the number of vertices whenever no value lies below
`start`.  In particular, `vertex_hist` with bins `[0, 1]` on a graph of
maximum out-degree 5 returns edges `[0, 1, 2, 3, 4, 5, 6]` and counts
summing to the number of vertices. -/
theorem C3_vertex_hist_auto_range (g : Graph) (d : Deg) (a b : Int)
    (counts : List Nat) (obins : List Int)
    (hok : vertex_hist g d [a, b] = Except.ok (counts, obins)) :
    (obins.head! = a ∧
     (∀ i : Nat, i < obins.length → obins[i]! = a + (b - a) * i) ∧
     (∀ v ∈ vertexValues g d, v < obins.getLast!) ∧
     ((∀ v ∈ vertexValues g d, a ≤ v) → counts.sum = g.numVertices)) ∧
    vertex_hist starSix Deg.dOut [0, 1]
      = Except.ok ([5, 0, 0, 0, 0, 1], [0, 1, 2, 3, 4, 5, 6]) ∧
    ([5, 0, 0, 0, 0, 1] : List Nat).sum = starSix.numVertices := by
  refine ⟨?_, by rfl, by decide⟩
  rcases histogramK_ok_cases [a, b] (vertexValues g d) counts obins hok with
    ⟨a', b', hab', hlt, hob, hc⟩ | ⟨h3, _⟩
  · have ha : a' = a := by
      have := congrArg (fun l => List.head! l) hab'
      simpa using this.symm
    have hb : b' = b := by
      have := congrArg (fun l => List.getLast! l) hab'
      simpa using this.symm
    subst ha
    subst hb
    set m := (vertexValues g d).foldl max a' with hm
    have hstep : 0 < b' - a' := by omega
    have hcover : ∀ v ∈ vertexValues g d, v < obins.getLast! := by
      intro v hv
      calc v ≤ m := foldl_max_le _ v a' hv
        _ < obins.getLast! := by
            rw [hob]
            exact expandBins_getLastBang a' (b' - a') m hstep
    refine ⟨?_, ?_, hcover, ?_⟩
    · rw [hob]
      exact expandBins_headBang _ _ _
    · intro i hi
      rw [hob] at hi ⊢
      exact expandBins_getElemBang a' (b' - a') m i hi
    · intro hlow
      obtain ⟨b0, rest, hcons, hrest, hch, hc2, hb0, _⟩ :=
        histogramK_ok_shape [a', b'] (vertexValues g d) counts obins hok
      have hg : obins.getLast! = (b0 :: rest).getLast (by simp) := by
        rw [hcons]
        exact getLast!_eq_getLast _ (by simp)
      have hb0a : b0 = a' := by
        rw [hb0]
        rfl
      rw [hc2, hcons, ← vertexValues_length g d]
      apply countsFor_sum_eq rest b0 _ hrest (hcons ▸ hch)
      intro v hv
      refine ⟨by rw [hb0a]; exact hlow v hv, ?_⟩
      have := hcover v hv
      rw [hg] at this
      exact this
  · rw [show ([a, b] : List Int).length = 2 from rfl] at h3
    omega

/-- Witness for C3: the starSix graph with auto-range bins `[0, 1]`. -/
theorem C3_vertex_hist_auto_range_witness :
    ([0, 1, 2, 3, 4, 5, 6] : List Int).head! = (0 : Int) ∧
    ([5, 0, 0, 0, 0, 1] : List Nat).sum = starSix.numVertices := by
  have h := C3_vertex_hist_auto_range starSix Deg.dOut 0 1
    [5, 0, 0, 0, 0, 1] [0, 1, 2, 3, 4, 5, 6] (by rfl)
  exact ⟨h.1.1, h.1.2.2.2 (by decide)⟩

/-- Witness for C2 at a concrete graph and bin list. -/
theorem C2_vertex_hist_sum_witness :
    vertex_hist starSix Deg.dOut [0, 3, 6] = Except.ok ([5, 1], [0, 3, 6]) ∧
    ([5, 1] : List Nat).sum ≤ starSix.numVertices := by
  have h : vertex_hist starSix Deg.dOut [0, 3, 6]
      = Except.ok ([5, 1], [0, 3, 6]) := by rfl
  exact ⟨h, (C2_vertex_hist_sum starSix Deg.dOut [0, 3, 6] [0, 3, 6] [5, 1] h).1⟩

/-- Counterexample to C4 as stated: the wrapper has no `try`/`finally`, so
when the removal kernel fails the stashed filter state is *not* restored —
on a graph with an active reversal flag, the failing call leaves the flag
cleared and the stash entry behind. -/
theorem C4_filter_restore_counterexample :
    remove_labeled_edges reversedGraph [] false
      = Except.error (Graph.mk 1 [] true false [(true, true)]) ∧
    (Graph.mk 1 [] true false [(true, true)]).rev ≠ reversedGraph.rev ∧
    (Graph.mk 1 [] true false [(true, true)]).fstash ≠ reversedGraph.fstash :=
  ⟨by rfl, by decide, by decide⟩

/-- C4 (amended): `remove_labeled_edges` stashes the directedness/reversal
flags before mutating and restores them on the *successful* exit path; when
the removal kernel fails, the exception propagates before `pop_filter` runs,
so the graph is left with the flags overridden (directed, unreversed) and
the stashed pair still on the stack. -/
theorem C4_filter_stash_restore (g : Graph) (label : List Int) :
    (∀ g', remove_labeled_edges g label true = Except.ok g' →
      g'.directed = g.directed ∧ g'.rev = g.rev ∧ g'.fstash = g.fstash) ∧
    (∀ g', remove_labeled_edges g label false = Except.error g' →
      g'.directed = true ∧ g'.rev = false ∧
      g'.fstash = (g.directed, g.rev) :: g.fstash) := by
  constructor
  · intro g' h
    rw [remove_labeled_edges_ok] at h
    simp only [Except.ok.injEq] at h
    rw [← h]
    exact ⟨rfl, rfl, rfl⟩
  · intro g' h
    rw [remove_labeled_edges_fail] at h
    simp only [Except.error.injEq] at h
    rw [← h]
    exact ⟨rfl, rfl, rfl⟩

/-- Witness for C4 (amended) at the reversed one-vertex graph. -/
theorem C4_filter_stash_restore_witness :
    (Graph.mk 1 [] true false [(true, true)]).fstash
      = (reversedGraph.directed, reversedGraph.rev) :: reversedGraph.fstash :=
  ((C4_filter_stash_restore reversedGraph []).2
    (Graph.mk 1 [] true false [(true, true)]) (by rfl)).2.2

theorem removeLabeledK_map (edges : List (Nat × Nat))
    (f : (Nat × Nat) → Int) :
    removeLabeledK edges (edges.map f)
      = edges.filter (fun e => f e == 0) := by
  induction edges with
  | nil => rfl
  | cons e t ih =>
      unfold removeLabeledK at ih ⊢
      rw [List.map_cons, List.zip_cons_cons, List.filter_cons,
        List.filter_cons]
      by_cases hfe : ((e, f e).2 == 0) = true
      · rw [if_pos hfe, if_pos hfe, List.map_cons]
        rw [ih]
      · rw [if_neg hfe, if_neg hfe]
        exact ih

/-- C5: a successful `remove_labeled_edges` keeps exactly the edges whose
label is zero; consequently `remove_self_loops` keeps exactly the non-loop
edges: on a graph with `N` self-loops and `M` other edges, `M` edges remain
and none of them is a self-loop. -/
theorem C5_remove_labeled_edges_exact (g : Graph) (label : List Int) :
    (∀ g', remove_labeled_edges g label true = Except.ok g' →
      g'.edges = ((g.edges.zip label).filter (fun p => p.2 == 0)).map
        Prod.fst) ∧
    (remove_self_loops g).edges = g.edges.filter (fun e => !(e.1 == e.2)) ∧
    (remove_self_loops g).edges.length
      = g.edges.countP (fun e => !(e.1 == e.2)) ∧
    (∀ e ∈ (remove_self_loops g).edges, ¬ e.1 = e.2) := by
  have hsl : (remove_self_loops g).edges
      = g.edges.filter (fun e => !(e.1 == e.2)) := by
    rw [remove_self_loops_eq]
    show removeLabeledK g.edges (label_self_loops g) = _
    unfold label_self_loops
    rw [removeLabeledK_map]
    refine List.filter_congr (fun e _ => ?_)
    by_cases h : (e.1 == e.2) = true
    · rw [h, if_pos rfl]
      rfl
    · rw [Bool.not_eq_true] at h
      rw [h, if_neg (by simp)]
      rfl
  refine ⟨?_, hsl, ?_, ?_⟩
  · intro g' h
    rw [remove_labeled_edges_ok] at h
    simp only [Except.ok.injEq] at h
    rw [← h]
    rfl
  · rw [hsl, ← List.countP_eq_length_filter]
  · intro e he
    rw [hsl] at he
    have := (List.mem_filter.mp he).2
    simpa using this

/-- Witness for C5 at a concrete graph with two self-loops. -/
theorem C5_remove_labeled_edges_exact_witness :
    (Graph.mk 3 [(0, 1), (1, 2)] true false []).edges
      = ((loopGraph.edges.zip [1, 0, 1, 0]).filter
          (fun p => p.2 == 0)).map Prod.fst :=
  (C5_remove_labeled_edges_exact loopGraph [1, 0, 1, 0]).1
    (Graph.mk 3 [(0, 1), (1, 2)] true false []) (by rfl)

/-- C8: `label_self_loops` writes, for every edge, exactly 1 when the edge's
source equals its target and exactly 0 otherwise. -/
theorem C8_label_self_loops_flags (g : Graph) :
    (label_self_loops g).length = g.edges.length ∧
    ∀ i, i < g.edges.length →
      (label_self_loops g)[i]!
        = if (g.edges[i]!).1 = (g.edges[i]!).2 then 1 else 0 := by
  constructor
  · exact List.length_map _ _
  · intro i hi
    have hlen : i < (label_self_loops g).length := by
      unfold label_self_loops
      rw [List.length_map]
      exact hi
    rw [getElem!_pos (label_self_loops g) i hlen,
      getElem!_pos g.edges i hi]
    unfold label_self_loops
    rw [List.getElem_map]
    by_cases h : (g.edges[i]).1 = (g.edges[i]).2 <;> simp [h]

/-- Witness for C8: the first edge of `loopGraph` is the self-loop (0,0). -/
theorem C8_label_self_loops_flags_witness :
    (label_self_loops loopGraph)[0]! = 1 := by
  have h := (C8_label_self_loops_flags loopGraph).2 0 (by decide)
  rw [h]
  rfl

theorem lpeGo_cons (dir : Bool) (e : Nat × Nat) (rest : List (Nat × Nat))
    (cnt : (Nat × Nat) → Nat) :
    lpeGo dir (e :: rest) cnt
      = ((cnt (edgeKey dir e) : Nat) : Int) ::
        lpeGo dir rest (bumped cnt (edgeKey dir e)) :=
  rfl

theorem bumped_eq (cnt : (Nat × Nat) → Nat) (k0 k : Nat × Nat) (h : k = k0) :
    bumped cnt k0 k = cnt k0 + 1 := by
  unfold bumped
  rw [if_pos h]

theorem bumped_ne (cnt : (Nat × Nat) → Nat) (k0 k : Nat × Nat) (h : k ≠ k0) :
    bumped cnt k0 k = cnt k := by
  unfold bumped
  rw [if_neg h]

theorem bumped_ge (cnt : (Nat × Nat) → Nat) (k0 k : Nat × Nat) :
    cnt k ≤ bumped cnt k0 k := by
  by_cases h : k = k0
  · rw [bumped_eq cnt k0 k h, h]
    omega
  · rw [bumped_ne cnt k0 k h]

theorem removeLabeledK_cons (e : Nat × Nat) (t : List (Nat × Nat)) (l : Int)
    (L : List Int) :
    removeLabeledK (e :: t) (l :: L)
      = if l == 0 then e :: removeLabeledK t L else removeLabeledK t L := by
  unfold removeLabeledK
  by_cases h : (l == 0) = true <;> simp [h]

theorem removeLabeledK_subset (edges : List (Nat × Nat)) (label : List Int)
    (e : Nat × Nat) (h : e ∈ removeLabeledK edges label) : e ∈ edges := by
  unfold removeLabeledK at h
  obtain ⟨p, hp, hpe⟩ := List.mem_map.mp h
  have hz := List.of_mem_zip (List.mem_filter.mp hp).1
  rw [← hpe]
  exact hz.1

theorem removeLabeledK_zero (edges : List (Nat × Nat)) :
    removeLabeledK edges (List.replicate edges.length 0) = edges := by
  induction edges with
  | nil => rfl
  | cons e t ih =>
      rw [List.length_cons, List.replicate_succ, removeLabeledK_cons,
        if_pos (by rfl), ih]

theorem lpe_group_labels (dir : Bool) (edges : List (Nat × Nat)) :
    ∀ (cnt : (Nat × Nat) → Nat) (k : Nat × Nat),
      ((edges.zip (lpeGo dir edges cnt)).filter
          (fun p => edgeKey dir p.1 == k)).map Prod.snd
        = (List.range' (cnt k)
            (edges.countP (fun e => edgeKey dir e == k))).map
              (fun (n : Nat) => (n : Int)) := by
  induction edges with
  | nil => intro cnt k; rfl
  | cons e t ih =>
      intro cnt k
      rw [lpeGo_cons, List.zip_cons_cons, List.filter_cons, List.countP_cons]
      by_cases hk : edgeKey dir e = k
      · rw [if_pos (by simp [hk]), List.map_cons]
        rw [ih (bumped cnt (edgeKey dir e)) k,
          bumped_eq cnt (edgeKey dir e) k hk.symm]
        have hpred : (edgeKey dir e == k) = true := by simp [hk]
        rw [hpred]
        rw [show (if true = true then 1 else 0) = 1 from rfl]
        rw [List.range'_succ, List.map_cons, hk]
      · rw [if_neg (by simp [hk]), ih (bumped cnt (edgeKey dir e)) k,
          bumped_ne cnt (edgeKey dir e) k (fun h => hk h.symm)]
        have hpred : (edgeKey dir e == k) = false := by simp [hk]
        rw [hpred]
        rw [show (if false = true then 1 else 0) = 0 from rfl, Nat.add_zero]

theorem lpe_all_zero (dir : Bool) (edges : List (Nat × Nat)) :
    ∀ (cnt : (Nat × Nat) → Nat),
      (∀ e ∈ edges, cnt (edgeKey dir e) = 0) →
      List.Pairwise (fun e1 e2 => edgeKey dir e1 ≠ edgeKey dir e2) edges →
      lpeGo dir edges cnt = List.replicate edges.length 0 := by
  induction edges with
  | nil => intro cnt _ _; rfl
  | cons e t ih =>
      intro cnt hz hpw
      rw [List.pairwise_cons] at hpw
      have ht : ∀ e' ∈ t, bumped cnt (edgeKey dir e) (edgeKey dir e') = 0 := by
        intro e' he'
        have hne : edgeKey dir e' ≠ edgeKey dir e :=
          fun h => (hpw.1 e' he') h.symm
        rw [bumped_ne cnt (edgeKey dir e) (edgeKey dir e') hne]
        exact hz e' (by simp [he'])
      rw [lpeGo_cons, List.length_cons, List.replicate_succ,
        ih (bumped cnt (edgeKey dir e)) ht hpw.2, hz e (by simp)]
      rfl

theorem lpe_surv_cnt_zero (dir : Bool) (edges : List (Nat × Nat)) :
    ∀ (cnt : (Nat × Nat) → Nat),
      ∀ e ∈ removeLabeledK edges (lpeGo dir edges cnt),
        cnt (edgeKey dir e) = 0 := by
  induction edges with
  | nil => intro cnt e he; simp [removeLabeledK] at he
  | cons e0 t ih =>
      intro cnt e he
      rw [lpeGo_cons, removeLabeledK_cons] at he
      by_cases h0 : cnt (edgeKey dir e0) = 0
      · rw [if_pos (by simp [h0])] at he
        rcases List.mem_cons.mp he with h | h
        · rw [h, h0]
        · have h1 := ih (bumped cnt (edgeKey dir e0)) e h
          have hle := bumped_ge cnt (edgeKey dir e0) (edgeKey dir e)
          omega
      · rw [if_neg (by simp [h0])] at he
        have h1 := ih (bumped cnt (edgeKey dir e0)) e he
        have hle := bumped_ge cnt (edgeKey dir e0) (edgeKey dir e)
        omega

theorem lpe_surv_pairwise (dir : Bool) (edges : List (Nat × Nat)) :
    ∀ (cnt : (Nat × Nat) → Nat),
      List.Pairwise (fun e1 e2 => edgeKey dir e1 ≠ edgeKey dir e2)
        (removeLabeledK edges (lpeGo dir edges cnt)) := by
  induction edges with
  | nil => intro cnt; simp [removeLabeledK]
  | cons e0 t ih =>
      intro cnt
      rw [lpeGo_cons, removeLabeledK_cons]
      by_cases h0 : cnt (edgeKey dir e0) = 0
      · rw [if_pos (by simp [h0])]
        rw [List.pairwise_cons]
        refine ⟨?_, ih _⟩
        intro e' he' heq
        have hz := lpe_surv_cnt_zero dir t (bumped cnt (edgeKey dir e0)) e' he'
        rw [← heq, bumped_eq cnt (edgeKey dir e0) (edgeKey dir e0) rfl] at hz
        simp at hz
      · rw [if_neg (by simp [h0])]
        exact ih _

theorem lpe_surv_countP (dir : Bool) (edges : List (Nat × Nat)) :
    ∀ (cnt : (Nat × Nat) → Nat) (k : Nat × Nat),
      (removeLabeledK edges (lpeGo dir edges cnt)).countP
          (fun e => edgeKey dir e == k)
        = if cnt k = 0 ∧
            0 < edges.countP (fun e => edgeKey dir e == k)
          then 1 else 0 := by
  induction edges with
  | nil => intro cnt k; simp [removeLabeledK]
  | cons e0 t ih =>
      intro cnt k
      rw [lpeGo_cons, removeLabeledK_cons, List.countP_cons]
      by_cases hk : edgeKey dir e0 = k
      · have hpred : (edgeKey dir e0 == k) = true := by simp [hk]
        rw [hpred]
        rw [show (if true = true then 1 else 0) = 1 from rfl]
        by_cases h0 : cnt (edgeKey dir e0) = 0
        · rw [if_pos (by simp [h0]), List.countP_cons, hpred,
            ih (bumped cnt (edgeKey dir e0)) k,
            bumped_eq cnt (edgeKey dir e0) k hk.symm]
          rw [show (if true = true then 1 else 0) = 1 from rfl]
          rw [if_neg (by omega)]
          rw [if_pos (And.intro (by rw [← hk]; exact h0) (by omega))]
        · rw [if_neg (by simp [h0]), ih (bumped cnt (edgeKey dir e0)) k,
            bumped_eq cnt (edgeKey dir e0) k hk.symm]
          rw [if_neg (by omega)]
          rw [if_neg (by rw [← hk]; omega)]
      · have hpred : (edgeKey dir e0 == k) = false := by simp [hk]
        rw [hpred]
        rw [show (if false = true then 1 else 0) = 0 from rfl, Nat.add_zero]
        by_cases h0 : cnt (edgeKey dir e0) = 0
        · rw [if_pos (by simp [h0]), List.countP_cons, hpred,
            ih (bumped cnt (edgeKey dir e0)) k,
            bumped_ne cnt (edgeKey dir e0) k (fun h => hk h.symm)]
          rw [show (if false = true then 1 else 0) = 0 from rfl, Nat.add_zero]
        · rw [if_neg (by simp [h0]), ih (bumped cnt (edgeKey dir e0)) k,
            bumped_ne cnt (edgeKey dir e0) k (fun h => hk h.symm)]

theorem graph_update_self (g : Graph) : { g with edges := g.edges } = g := by
  cases g
  rfl

/-- C6: within each group of edges sharing the same key (the ordered
(source, target) pair when directed, the unordered pair when undirected),
`label_parallel_edges` assigns, in traversal order, the distinct labels
`0 .. group_size - 1` (so label 0 is held by exactly one edge per group);
on a graph with no duplicate keys every edge gets label 0. -/
theorem C6_label_parallel_edges_groups (g : Graph) (k : Nat × Nat) :
    ((g.edges.zip (label_parallel_edges g)).filter
        (fun p => edgeKey g.directed p.1 == k)).map Prod.snd
      = (List.range (g.edges.countP
          (fun e => edgeKey g.directed e == k))).map
            (fun (n : Nat) => (n : Int)) ∧
    (List.Pairwise
        (fun e1 e2 => edgeKey g.directed e1 ≠ edgeKey g.directed e2)
        g.edges →
      label_parallel_edges g = List.replicate g.edges.length 0) ∧
    label_parallel_edges multiGraph = [0, 1, 0, 2, 0, 1] := by
  refine ⟨?_, ?_, by rfl⟩
  · rw [List.range_eq_range']
    exact lpe_group_labels g.directed g.edges (fun _ => 0) k
  · intro hpw
    exact lpe_all_zero g.directed g.edges (fun _ => 0) (fun _ _ => rfl) hpw

/-- Witness for C6: the directed triangle has no duplicate (source, target)
pairs, so every edge receives label 0. -/
theorem C6_label_parallel_edges_groups_witness :
    label_parallel_edges triangleDir
      = List.replicate triangleDir.edges.length 0 :=
  (C6_label_parallel_edges_groups triangleDir (0, 0)).2.1 (by decide)

/-- C7: `remove_parallel_edges` is idempotent — applying it twice yields the
same graph (and in particular the same edge list) as applying it once. -/
theorem C7_remove_parallel_edges_idempotent (g : Graph) :
    remove_parallel_edges (remove_parallel_edges g) = remove_parallel_edges g := by
  have hd : (remove_parallel_edges g).directed = g.directed := by
    rw [remove_parallel_edges_eq]
  have he : (remove_parallel_edges g).edges
      = removeLabeledK g.edges (label_parallel_edges g) := by
    rw [remove_parallel_edges_eq]
  have hz : label_parallel_edges (remove_parallel_edges g)
      = List.replicate (remove_parallel_edges g).edges.length 0 := by
    unfold label_parallel_edges
    apply lpe_all_zero
    · intro e _
      rfl
    · rw [he, hd]
      exact lpe_surv_pairwise g.directed g.edges (fun _ => 0)
  rw [remove_parallel_edges_eq (remove_parallel_edges g), hz,
    removeLabeledK_zero, graph_update_self]

/-- C10: `remove_parallel_edges` keeps exactly one edge for every
(source, target) key that was present and introduces none: afterwards each
key's multiplicity is 1 if it was positive and 0 if it was 0, and every
remaining edge already occurred in the original graph. -/
theorem C10_remove_parallel_edges_pairs (g : Graph) (k : Nat × Nat) :
    (remove_parallel_edges g).edges.countP
        (fun e => edgeKey g.directed e == k)
      = (if 0 < g.edges.countP (fun e => edgeKey g.directed e == k)
          then 1 else 0) ∧
    ∀ e ∈ (remove_parallel_edges g).edges, e ∈ g.edges := by
  constructor
  · have he : (remove_parallel_edges g).edges
        = removeLabeledK g.edges (label_parallel_edges g) := by
      rw [remove_parallel_edges_eq]
    rw [he]
    unfold label_parallel_edges
    rw [lpe_surv_countP g.directed g.edges (fun _ => 0) k]
    by_cases hpos : 0 < g.edges.countP (fun e => edgeKey g.directed e == k)
    · rw [if_pos ⟨rfl, hpos⟩, if_pos hpos]
    · rw [if_neg (fun h => hpos h.2), if_neg hpos]
  · intro e he
    have heq : (remove_parallel_edges g).edges
        = removeLabeledK g.edges (label_parallel_edges g) := by
      rw [remove_parallel_edges_eq]
    rw [heq] at he
    exact removeLabeledK_subset _ _ e he

/-- Witness for C10: after deduplication, `multiGraph` has exactly one (0,1)
edge. -/
theorem C10_remove_parallel_edges_pairs_witness :
    (remove_parallel_edges multiGraph).edges.countP
        (fun e => edgeKey multiGraph.directed e == (0, 1)) = 1 := by
  have h := (C10_remove_parallel_edges_pairs multiGraph (0, 1)).1
  rw [h]
  rfl

theorem sampleVar_nonneg (xs : List Rat) (h : 1 < xs.length) :
    0 ≤ sampleVar xs := by
  unfold sampleVar sumSqDev
  apply div_nonneg
  · apply List.sum_nonneg
    intro x hx
    obtain ⟨y, _, hy⟩ := List.mem_map.mp hx
    rw [← hy]
    exact sq_nonneg _
  · have hc : (1 : Rat) < (xs.length : Rat) := by exact_mod_cast h
    linarith

theorem averageK_props (xs : List Rat) :
    (xs.length ≤ 1 → (averageK xs).2 = 0) ∧
    (xs.length = 0 → averageK xs = (0, 0)) ∧
    (1 < xs.length → (averageK xs).2
      = Real.sqrt ((sampleVar xs : Real)) / Real.sqrt (xs.length : Real)) := by
  refine ⟨?_, ?_, ?_⟩
  · intro h
    show stdErr xs = 0
    unfold stdErr
    rw [if_pos h]
  · intro h
    have h2 : stdErr xs = 0 := by
      unfold stdErr
      rw [if_pos (by omega)]
    unfold averageK
    rw [if_pos h, h2]
  · intro h
    show stdErr xs = _
    unfold stdErr
    rw [if_neg (by omega)]
    exact Real.sqrt_div (by exact_mod_cast sampleVar_nonneg xs h) _

/-- C9: `vertex_average` and `edge_average` return (mean, standard error)
with the standard error equal to the sample standard deviation divided by
`sqrt n`; for `n ≤ 1` the standard error is 0 (not NaN, not an error), and
on an empty graph / empty edge set the result is (0, 0) rather than a
failure. -/
theorem C9_average_stderr (g : Graph) (d : Deg) (ep : List Rat) :
    ((g.numVertices ≤ 1 → (vertex_average g d).2 = 0) ∧
     (g.numVertices = 0 → vertex_average g d = (0, 0)) ∧
     (1 < g.numVertices → (vertex_average g d).2
        = Real.sqrt ((sampleVar
            ((vertexValues g d).map (fun (v : Int) => (v : Rat)))) : Real)
          / Real.sqrt (g.numVertices : Real))) ∧
    ((ep.length ≤ 1 → (edge_average g ep).2 = 0) ∧
     (ep.length = 0 → edge_average g ep = (0, 0)) ∧
     (1 < ep.length → (edge_average g ep).2
        = Real.sqrt ((sampleVar ep : Real))
          / Real.sqrt (ep.length : Real))) := by
  have hvlen : ((vertexValues g d).map (fun (v : Int) => (v : Rat))).length
      = g.numVertices := by
    rw [List.length_map]
    exact vertexValues_length g d
  have hv := averageK_props ((vertexValues g d).map (fun (v : Int) => (v : Rat)))
  rw [hvlen] at hv
  have he := averageK_props ep
  exact ⟨hv, he⟩

/-- Witness for C9 at the empty graph and the empty edge property. -/
theorem C9_average_stderr_witness :
    vertex_average emptyGraph Deg.dOut = (0, 0) ∧
    edge_average emptyGraph ([] : List Rat) = (0, 0) :=
  ⟨(C9_average_stderr emptyGraph Deg.dOut []).1.2.1 rfl,
   (C9_average_stderr emptyGraph Deg.dOut []).2.2.1 rfl⟩

end GraphToolStats
